import Mathlib

/-!
# HashMouth core: shallow embedding and verification

A shallow embedding, in Lean 4, of the core algorithms of the HashMouth
anonymous overlay messaging system, together with proofs about them:

* `Crypto`  — the onion codec (`CreateOnionPacket` / `PeelOnion` from
  `crypto/crypto.go`), on top of a byte-level model of the external
  ChaCha20-Poly1305 AEAD library (RFC 8439), and the ratchet session
  (`crypto/keys.go`).
* `Message` — chunking and reassembly (`message/chunk.go`).
* `Routing` — the path builder (`routing/path.go`).
* `Network` — the relay state machine (`network/relay.go`).

Go byte slices are modelled as `List Nat` (entries are byte values), Go
`int` as `Int`, Go maps as insertion-ordered association lists, fallible
Go functions returning `(T, error)` as `Except String T`, and random
draws from `crypto/rand` as explicit parameters.
-/

namespace HashMouth

namespace Crypto

/-! ## Model of the external ChaCha20-Poly1305 library

`crypto/crypto.go` delegates sealing and opening to
`golang.org/x/crypto/chacha20poly1305`.  That library is not part of the
repository; it is modelled here by the RFC 8439 construction it
implements: ChaCha20 keystream encryption and a Poly1305 tag over the
ciphertext, `Seal` producing `ciphertext ‖ tag(16)` and `Open` checking
the tag before decrypting. -/

/-- 32-bit left rotation, as used by the ChaCha20 quarter round. -/
def rotl32 (x n : Nat) : Nat :=
  ((x <<< n) ||| (x >>> (32 - n))) % 4294967296

/-- ChaCha20 quarter round on four 32-bit words (RFC 8439 §2.1). -/
def quarterRound : Nat × Nat × Nat × Nat → Nat × Nat × Nat × Nat
  | (a, b, c, d) =>
    let a := (a + b) % 4294967296
    let d := rotl32 (d ^^^ a) 16
    let c := (c + d) % 4294967296
    let b := rotl32 (b ^^^ c) 12
    let a := (a + b) % 4294967296
    let d := rotl32 (d ^^^ a) 8
    let c := (c + d) % 4294967296
    let b := rotl32 (b ^^^ c) 7
    (a, b, c, d)

/-- Read word `i` of a ChaCha20 state (a list of 16 words). -/
def getW (s : List Nat) (i : Nat) : Nat := s.getD i 0

/-- Apply the quarter round to state positions `a b c d`. -/
def qrAt (s : List Nat) (a b c d : Nat) : List Nat :=
  let r := quarterRound (getW s a, getW s b, getW s c, getW s d)
  s.mapIdx fun i x =>
    if i = a then r.1 else if i = b then r.2.1
    else if i = c then r.2.2.1 else if i = d then r.2.2.2 else x

/-- One ChaCha20 double round: four column rounds then four diagonal rounds. -/
def doubleRound (s : List Nat) : List Nat :=
  let s := qrAt s 0 4 8 12
  let s := qrAt s 1 5 9 13
  let s := qrAt s 2 6 10 14
  let s := qrAt s 3 7 11 15
  let s := qrAt s 0 5 10 15
  let s := qrAt s 1 6 11 12
  let s := qrAt s 2 7 8 13
  qrAt s 3 4 9 14

/-- Little-endian 32-bit word from four bytes of a list (zero padded). -/
def le32 (l : List Nat) (i : Nat) : Nat :=
  l.getD i 0 + 256 * l.getD (i+1) 0 + 65536 * l.getD (i+2) 0 + 16777216 * l.getD (i+3) 0

/-- The ChaCha20 block function: 64 keystream bytes for (key, counter, nonce). -/
def chachaBlock (key nonce : List Nat) (counter : Nat) : List Nat :=
  let init : List Nat :=
    [0x61707865, 0x3320646e, 0x79622d32, 0x6b206574,
     le32 key 0, le32 key 4, le32 key 8, le32 key 12,
     le32 key 16, le32 key 20, le32 key 24, le32 key 28,
     counter % 4294967296, le32 nonce 0, le32 nonce 4, le32 nonce 8]
  let mixed := doubleRound^[10] init
  let final := (mixed.zip init).map fun p => (p.1 + p.2) % 4294967296
  final.flatMap fun w => [w % 256, (w >>> 8) % 256, (w >>> 16) % 256, (w >>> 24) % 256]

/-- Byte `i` of the ChaCha20 keystream (encryption starts at block counter 1). -/
def keystreamByte (key nonce : List Nat) (i : Nat) : Nat :=
  (chachaBlock key nonce (i / 64 + 1)).getD (i % 64) 0

/-- XOR a message with the ChaCha20 keystream (block counter starting at 1);
this is both encryption and decryption. -/
def chacha20Xor (key nonce msg : List Nat) : List Nat :=
  msg.zipWith (fun b k => b ^^^ k) ((List.range msg.length).map (keystreamByte key nonce))

/-- Little-endian value of a whole byte list. -/
def leNum : List Nat → Nat
  | [] => 0
  | b :: rest => b % 256 + 256 * leNum rest

/-- Serialize the low `n` bytes of a number in little-endian order. -/
def leBytes (n : Nat) (x : Nat) : List Nat :=
  (List.range n).map fun i => (x >>> (8 * i)) % 256

/-- Split a byte list into blocks of at most 16 bytes (Poly1305 blocks). -/
def blocks16 (l : List Nat) : List (List Nat) :=
  if h : l = [] then [] else
    l.take 16 :: blocks16 (l.drop 16)
termination_by l.length
decreasing_by
  simp only [List.length_drop]
  exact Nat.sub_lt (List.length_pos.mpr h) (by norm_num)

/-- The Poly1305 one-time authenticator (RFC 8439 §2.5): a 16-byte tag. -/
def poly1305 (msg key : List Nat) : List Nat :=
  let p := 2 ^ 130 - 5
  let r := leNum (key.take 16) &&& 0x0ffffffc0ffffffc0ffffffc0fffffff
  let s := leNum ((key.drop 16).take 16)
  let acc := (blocks16 msg).foldl
    (fun acc block => ((acc + leNum block + 2 ^ (8 * block.length)) * r) % p) 0
  leBytes 16 ((acc + s) % (2 ^ 128))

/-- Zero padding of a byte string to a multiple of 16 bytes (RFC 8439 §2.8). -/
def pad16 (l : List Nat) : List Nat :=
  if l.length % 16 = 0 then [] else List.replicate (16 - l.length % 16) 0

/-- The data over which the ChaCha20-Poly1305 tag is computed (RFC 8439 §2.8). -/
def macData (aad ct : List Nat) : List Nat :=
  aad ++ pad16 aad ++ ct ++ pad16 ct ++ leBytes 8 aad.length ++ leBytes 8 ct.length

/-- The Poly1305 key used by the AEAD: the first 32 keystream bytes of block 0. -/
def polyKey (key nonce : List Nat) : List Nat :=
  (chachaBlock key nonce 0).take 32

/-- ChaCha20-Poly1305 `Seal`: ciphertext followed by the 16-byte tag. -/
def chacha20poly1305Seal (key nonce plain aad : List Nat) : List Nat :=
  let ct := chacha20Xor key nonce plain
  ct ++ poly1305 (macData aad ct) (polyKey key nonce)

/-- ChaCha20-Poly1305 `Open`: checks the tag, then decrypts.  `none` models
the library's `chacha20poly1305: message authentication failed` error, which
is also returned when the input is shorter than the 16-byte tag. -/
def chacha20poly1305Open (key nonce data aad : List Nat) : Option (List Nat) :=
  if data.length < 16 then none else
  let ct := data.take (data.length - 16)
  let tag := data.drop (data.length - 16)
  if tag = poly1305 (macData aad ct) (polyKey key nonce) then
    some (chacha20Xor key nonce ct)
  else none

/-! ## Onion codec (`crypto/crypto.go`) -/

/-- `OnionPacket` from `crypto/crypto.go`: an encrypted layer, whose sole
representation is its payload `nonce(12) ‖ ciphertext ‖ tag(16)`. -/
structure OnionPacket where
  Payload : List Nat
deriving DecidableEq, Repr

/-- `CreateOnionPacket` from `crypto/crypto.go`: seal `plain` under `key`
with a fresh 12-byte nonce and emit `nonce ‖ ciphertext ‖ tag`.  The random
nonce (read from `crypto/rand`) is passed explicitly; the source always
supplies exactly `NonceSize = 12` bytes.  `chacha20poly1305.New` rejects
keys that are not 32 bytes long. -/
def CreateOnionPacket (plain key : List Nat) (nonce : List Nat) : Except String OnionPacket :=
  if key.length = 32 then
    .ok ⟨nonce ++ chacha20poly1305Seal key nonce plain []⟩
  else .error "chacha20poly1305: bad key length"

/-- `PeelOnion` from `crypto/crypto.go`: split off the first 12 bytes as the
nonce and `Open` the remainder. -/
def PeelOnion (pkt : OnionPacket) (key : List Nat) : Except String (List Nat) :=
  if key.length = 32 then
    if pkt.Payload.length < 12 then .error "invalid payload"
    else
      match chacha20poly1305Open key (pkt.Payload.take 12) (pkt.Payload.drop 12) [] with
      | some plain => .ok plain
      | none => .error "chacha20poly1305: message authentication failed"
  else .error "chacha20poly1305: bad key length"

/-- `OnionPacket.Serialize` from `crypto/crypto.go`: the identity on the payload. -/
def OnionPacket.Serialize (p : OnionPacket) : List Nat := p.Payload

/-- `Deserialize` from `crypto/crypto.go`: wraps the bytes; never fails. -/
def Deserialize (data : List Nat) : Except String OnionPacket :=
  .ok ⟨data⟩

/-- Multi-layer onion wrapping, as exercised by `TestMultiLayerOnion`:
`layers` lists (key, nonce) pairs outermost first; the payload is wrapped
with the innermost (last) key first, serializing between layers. -/
def wrapOnionLayers (payload : List Nat) : List (List Nat × List Nat) → Except String (List Nat)
  | [] => .ok payload
  | (key, nonce) :: rest =>
    match wrapOnionLayers payload rest with
    | .error e => .error e
    | .ok inner =>
      match CreateOnionPacket inner key nonce with
      | .error e => .error e
      | .ok pkt => .ok pkt.Serialize

/-- Multi-layer peeling: peel with the keys in outermost-first order,
deserializing between layers. -/
def peelOnionLayers (data : List Nat) : List (List Nat) → Except String (List Nat)
  | [] => .ok data
  | key :: rest =>
    match Deserialize data with
    | .error e => .error e
    | .ok pkt =>
      match PeelOnion pkt key with
      | .error e => .error e
      | .ok inner => peelOnionLayers inner rest

/-- The nonce part of a packet as `PeelOnion` splits it: the first 12 bytes. -/
def peelNonce (pkt : OnionPacket) : List Nat := pkt.Payload.take 12

/-- The AEAD input part of a packet as `PeelOnion` splits it: everything
after the 12-byte nonce. -/
def peelBody (pkt : OnionPacket) : List Nat := pkt.Payload.drop 12

/-- The ciphertext part of a peeled packet: the body minus the 16-byte tag. -/
def peelCiphertext (pkt : OnionPacket) : List Nat :=
  (peelBody pkt).take ((peelBody pkt).length - 16)

/-- The tag part of a peeled packet: the final 16 bytes of the body. -/
def peelTag (pkt : OnionPacket) : List Nat :=
  (peelBody pkt).drop ((peelBody pkt).length - 16)

/-- The AEAD tag of `pkt` verifies under `key`: the body is long enough to
hold a tag at all, and its final 16 bytes equal the Poly1305 tag recomputed
over its ciphertext with the Poly1305 key derived from `key` and the
packet's nonce. -/
def TagVerifies (key : List Nat) (pkt : OnionPacket) : Prop :=
  16 ≤ (peelBody pkt).length ∧
  peelTag pkt = poly1305 (macData [] (peelCiphertext pkt)) (polyKey key (peelNonce pkt))

instance (key : List Nat) (pkt : OnionPacket) : Decidable (TagVerifies key pkt) := by
  unfold TagVerifies
  infer_instance

/-! ## Ratchet session (`crypto/keys.go`) -/

/-- `RatchetSession` from `crypto/keys.go`: the state for a session with a peer. -/
structure RatchetSession where
  DHPrivate : List Nat
  DHPublic : List Nat
  PeerPub : List Nat
  RootKey : List Nat
  ChainKey : List Nat
deriving DecidableEq, Repr

/-- `RatchetSession.RatchetStep` from `crypto/keys.go`: derives the next
chain key by XORing every byte of the current one with `0x55` (the source
calls this a "very simple placeholder for demo"). -/
def RatchetSession.RatchetStep (r : RatchetSession) : RatchetSession :=
  { r with ChainKey := r.ChainKey.map fun b => b ^^^ 0x55 }

/-- `RatchetSession.GetNextKey` from `crypto/keys.go`: performs one ratchet
step and returns the new chain key together with the updated session. -/
def RatchetSession.GetNextKey (r : RatchetSession) : List Nat × RatchetSession :=
  let r2 := r.RatchetStep
  (r2.ChainKey, r2)

/-- The chain key held after `n` ratchet steps from session `r`. -/
def chainKeyAfter (r : RatchetSession) (n : Nat) : List Nat :=
  (RatchetSession.RatchetStep^[n] r).ChainKey

/-- The all-zero 32-byte key of the spec's single-hop round-trip scenario. -/
def zeroKey : List Nat := List.replicate 32 0

/-- Two concrete (key, nonce) layers used to instantiate the onion theorems. -/
def demoLayers : List (List Nat × List Nat) :=
  [(List.replicate 32 0, List.replicate 12 0), (List.replicate 32 1, List.replicate 12 1)]

/-- A fresh session as `NewRatchetSession` would produce it: root and chain
key both equal to the shared secret (here the all-zero 32-byte secret). -/
def demoSession : RatchetSession :=
  { DHPrivate := List.replicate 32 0, DHPublic := List.replicate 32 0,
    PeerPub := List.replicate 32 0, RootKey := List.replicate 32 0,
    ChainKey := List.replicate 32 0 }

end Crypto

namespace Message

/-! ## Chunking and reassembly (`message/chunk.go`) -/

/-- `Chunk` from `message/chunk.go`: a piece of a larger message. -/
structure Chunk where
  MessageID : String
  Seq : Int
  Total : Int
  Data : List Nat
deriving DecidableEq, Repr

/-- `NewChunk` from `message/chunk.go`. -/
def NewChunk (messageID : String) (seq total : Int) (data : List Nat) : Chunk :=
  { MessageID := messageID, Seq := seq, Total := total, Data := data }

/-- `Chunk.Validate` from `message/chunk.go`; `none` means valid, `some e`
is the error message, tested in source order. -/
def Chunk.Validate (c : Chunk) : Option String :=
  if c.MessageID = "" then some "message ID cannot be empty"
  else if c.Seq < 0 ∨ c.Seq ≥ c.Total then some "invalid sequence number"
  else if c.Total ≤ 0 then some "total chunks must be positive"
  else if c.Data.length = 0 then some "chunk data cannot be empty"
  else none

/-- `ChunkAssembler` from `message/chunk.go`.  The Go state is
`map[string]map[int]*Chunk`; both maps are modelled as insertion-ordered
association lists (the outer one keyed by message ID, the inner one keyed
by `Seq` with at most one chunk per sequence number).  Go map iteration
order is unspecified; this model fixes insertion order, so loops that
examine "any" element examine the first-inserted one — one admissible
schedule of the Go program. -/
structure ChunkAssembler where
  chunks : List (String × List Chunk)
deriving DecidableEq, Repr

/-- `NewChunkAssembler` from `message/chunk.go`: the empty assembler. -/
def NewChunkAssembler : ChunkAssembler := ⟨[]⟩

/-- Look up the inner chunk map for a message ID (`ca.chunks[messageID]`). -/
def ChunkAssembler.lookupMsg (ca : ChunkAssembler) (messageID : String) : Option (List Chunk) :=
  (ca.chunks.find? fun e => e.1 = messageID).map Prod.snd

/-- Store a chunk under its sequence number (`ca.chunks[id][seq] = chunk`):
replace an existing entry with the same `Seq`, otherwise append. -/
def insertChunk (l : List Chunk) (c : Chunk) : List Chunk :=
  if l.any fun d => d.Seq = c.Seq then
    l.map fun d => if d.Seq = c.Seq then c else d
  else l ++ [c]

/-- Update (or create) the inner map of a message ID. -/
def ChunkAssembler.updateMsg (ca : ChunkAssembler) (messageID : String)
    (f : List Chunk → List Chunk) : ChunkAssembler :=
  if ca.chunks.any fun e => e.1 = messageID then
    ⟨ca.chunks.map fun e => if e.1 = messageID then (e.1, f e.2) else e⟩
  else ⟨ca.chunks ++ [(messageID, f [])]⟩

/-- `ChunkAssembler.AddChunk` from `message/chunk.go`: validate the chunk;
on failure return the error and leave the state as it was, otherwise store
the chunk under `(MessageID, Seq)`.  Returned pair: (error, new state). -/
def ChunkAssembler.AddChunk (ca : ChunkAssembler) (c : Chunk) : Option String × ChunkAssembler :=
  match c.Validate with
  | some e => (some e, ca)
  | none => (none, ca.updateMsg c.MessageID fun l => insertChunk l c)

/-- `ChunkAssembler.IsComplete` from `message/chunk.go`: take `Total` from
one stored chunk (the first, see `ChunkAssembler`), compare it with the
number of stored chunks, and check that every sequence number `0..total-1`
is present. -/
def ChunkAssembler.IsComplete (ca : ChunkAssembler) (messageID : String) : Bool :=
  match ca.lookupMsg messageID with
  | none => false
  | some chunks =>
    match chunks with
    | [] => false
    | c0 :: _ =>
      let total := c0.Total
      if (chunks.length : Int) ≠ total then false
      else (List.range total.toNat).all fun i => chunks.any fun c => c.Seq = (i : Int)

/-- Find the stored chunk with sequence number `i` (`chunks[i]` on the inner
Go map).  `none` models the `nil` pointer Go yields for a missing key. -/
def findSeq (l : List Chunk) (i : Int) : Option Chunk :=
  l.find? fun c => c.Seq = i

/-- `ChunkAssembler.Assemble` from `message/chunk.go`: requires
`IsComplete`; reads `Total` from the chunk stored at sequence number 0,
concatenates the chunk data in sequence order, and deletes the message
entry.  Returned pair: (result, new state).  (When the stored chunks
disagree on `Total`, the Go loop can index a missing key and dereference a
`nil` `*Chunk`, which panics; the model reads empty data there instead —
no theorem below depends on that case.) -/
def ChunkAssembler.Assemble (ca : ChunkAssembler) (messageID : String) :
    Except String (List Nat) × ChunkAssembler :=
  if ¬ ca.IsComplete messageID then (.error "message is not complete", ca)
  else
    let chunks := (ca.lookupMsg messageID).getD []
    let total := ((findSeq chunks 0).map Chunk.Total).getD 0
    let result := ((List.range total.toNat).map fun i =>
      ((findSeq chunks (Int.ofNat i)).map Chunk.Data).getD []).flatten
    (.ok result, ⟨ca.chunks.filter fun e => ¬ e.1 = messageID⟩)

/-- `SplitMessage` from `message/chunk.go`: split `data` into
`⌈len/chunkSize⌉` chunks of at most `chunkSize` bytes. -/
def SplitMessage (messageID : String) (data : List Nat) (chunkSize : Int) :
    Except String (List Chunk) :=
  if chunkSize ≤ 0 then .error "chunk size must be positive"
  else if data.length = 0 then .error "data cannot be empty"
  else
    let cs := chunkSize.toNat
    let total := (data.length + cs - 1) / cs
    .ok ((List.range total).map fun i =>
      NewChunk messageID (Int.ofNat i) (Int.ofNat total) ((data.drop (i * cs)).take cs))

/-- Add a list of chunks to an assembler in order, discarding the per-add
error results (as the round-trip tests do). -/
def addAll (ca : ChunkAssembler) (l : List Chunk) : ChunkAssembler :=
  l.foldl (fun s c => (s.AddChunk c).2) ca

/-- Every chunk stored in the assembler passes `Chunk.Validate`. -/
def StoredValid (ca : ChunkAssembler) : Prop :=
  ∀ e ∈ ca.chunks, ∀ c ∈ (e : String × List Chunk).2, c.Validate = none

/-- No two chunks stored under one message ID share a sequence number
(the inner Go map is keyed by `Seq`, so this always holds of states built
by `AddChunk`). -/
def SeqsDistinct (ca : ChunkAssembler) : Prop :=
  ∀ e ∈ ca.chunks, ((e : String × List Chunk).2.map Chunk.Seq).Nodup

instance (ca : ChunkAssembler) : Decidable (SeqsDistinct ca) := by
  unfold SeqsDistinct
  infer_instance

/-- An assembler holding two chunks of message `"m"` that disagree on
`Total` (2 and 3) while their sequence numbers are exactly {0, 1}. -/
def mixedCA : ChunkAssembler :=
  addAll NewChunkAssembler
    [{ MessageID := "m", Seq := 0, Total := 2, Data := [1] },
     { MessageID := "m", Seq := 1, Total := 3, Data := [2] }]

/-- An assembler holding a complete, consistent two-chunk message `"m"`. -/
def completeCA : ChunkAssembler :=
  addAll NewChunkAssembler
    [{ MessageID := "m", Seq := 0, Total := 2, Data := [5] },
     { MessageID := "m", Seq := 1, Total := 2, Data := [6] }]

/-- A chunk with an empty message ID; `Chunk.Validate` rejects it. -/
def badChunk : Chunk := { MessageID := "", Seq := 0, Total := 1, Data := [1] }

end Message

namespace Routing

/-! ## Path builder (`routing/path.go`) -/

/-- `Path` from `routing/path.go`: an ordered list of node IDs. -/
structure Path where
  Nodes : List String
deriving DecidableEq, Repr

/-- `NewPath` from `routing/path.go`: rejects an empty node list. -/
def NewPath (nodes : List String) : Except String Path :=
  if nodes.length = 0 then .error "path must contain at least one node"
  else .ok ⟨nodes⟩

/-- `PathBuilder` from `routing/path.go`. -/
structure PathBuilder where
  availableNodes : List String
  minPathLength : Int
  maxPathLength : Int
deriving Repr

/-- `NewPathBuilder` from `routing/path.go`: bounds and size checks. -/
def NewPathBuilder (nodes : List String) (minLength maxLength : Int) :
    Except String PathBuilder :=
  if minLength < 1 then .error "minimum path length must be at least 1"
  else if maxLength < minLength then .error "maximum path length must be >= minimum path length"
  else if (nodes.length : Int) < minLength then .error "not enough nodes for minimum path length"
  else .ok ⟨nodes, minLength, maxLength⟩

/-- The rejection-sampling selection loop of `BuildRandomPath`: repeatedly
draw an index (each Go draw `rand.Int(len(available))` is modelled by one
entry of `draws`, reduced modulo `available.length`), skip indices already
used, and stop once `pathLength` nodes are selected.  `none` means the
supply of modelled draws ran out while the Go loop would still be running. -/
def selectLoop (available : List String) (pathLength : Nat) :
    List Nat → List String → List Nat → Option (Except String Path)
  | [], selected, _used =>
    if selected.length < pathLength then none else some (NewPath selected)
  | d :: rest, selected, used =>
    if selected.length < pathLength then
      if used.contains (d % available.length) then
        selectLoop available pathLength rest selected used
      else
        selectLoop available pathLength rest
          (selected ++ [available.getD (d % available.length) ""])
          (used ++ [d % available.length])
    else some (NewPath selected)

/-- `PathBuilder.BuildRandomPath` from `routing/path.go`.  `lengthDraw`
models the draw of `rand.Int(lengthRange)` (reduced modulo the range) and
`draws` the index draws of the selection loop. -/
def PathBuilder.BuildRandomPath (pb : PathBuilder) (lengthDraw : Nat) (draws : List Nat) :
    Option (Except String Path) :=
  if pb.availableNodes.length = 0 then some (.error "no nodes available")
  else
    let lengthRange := pb.maxPathLength - pb.minPathLength + 1
    let pathLength := pb.minPathLength + (lengthDraw % lengthRange.toNat : Nat)
    let pathLength := if pathLength > (pb.availableNodes.length : Int)
      then (pb.availableNodes.length : Int) else pathLength
    selectLoop pb.availableNodes pathLength.toNat draws [] []

/-- `PathBuilder.BuildPathExcluding` from `routing/path.go`: filter out the
excluded nodes, fail if fewer than `minPathLength` remain, then build a
random path over the filtered set with the original bounds. -/
def PathBuilder.BuildPathExcluding (pb : PathBuilder) (excludeNodes : List String)
    (lengthDraw : Nat) (draws : List Nat) : Option (Except String Path) :=
  let filtered := pb.availableNodes.filter fun n => ¬ excludeNodes.contains n
  if (filtered.length : Int) < pb.minPathLength then
    some (.error "not enough nodes after exclusion")
  else
    match NewPathBuilder filtered pb.minPathLength pb.maxPathLength with
    | .error e => some (.error e)
    | .ok tempBuilder => tempBuilder.BuildRandomPath lengthDraw draws

end Routing

namespace Network

/-! ## Relay state machine (`network/relay.go`) -/

/-- `RelayMessage` from `network/relay.go`: a message with routing info. -/
structure RelayMessage where
  MessageID : String
  NextHop : String
  FinalDest : String
  HopsLeft : Int
  Payload : List Nat
  Path : List String
  Timestamp : Int
deriving DecidableEq, Repr

/-- The next-hop search of `ProcessRelayMessage`: the element following the
first occurrence of `currentNodeID` that has a successor in the path. -/
def nextHopInPath : List String → String → Option String
  | [], _ => none
  | [_], _ => none
  | x :: y :: rest, currentNodeID =>
    if x = currentNodeID then some y else nextHopInPath (y :: rest) currentNodeID

/-- `RelayNetwork.ProcessRelayMessage` from `network/relay.go`: deliver when
this node is the final destination; otherwise drop on exhausted hop count,
else decrement `HopsLeft`, update `NextHop` from the carried path, and
relay.  The returned `Bool` is the "final destination" flag. -/
def ProcessRelayMessage (msg : RelayMessage) (currentNodeID : String) :
    Except String (RelayMessage × Bool) :=
  if msg.FinalDest = currentNodeID then .ok (msg, true)
  else if msg.HopsLeft ≤ 0 then .error "message exceeded hop limit"
  else
    let msg1 := { msg with HopsLeft := msg.HopsLeft - 1 }
    let msg2 :=
      if msg1.Path.length > 0 then
        match nextHopInPath msg1.Path currentNodeID with
        | some nh => { msg1 with NextHop := nh }
        | none => msg1
      else msg1
    .ok (msg2, false)

/-- An expired relay message that has arrived at its final destination. -/
def expiredAtDest : RelayMessage :=
  { MessageID := "m1", NextHop := "", FinalDest := "n1", HopsLeft := 0,
    Payload := [], Path := [], Timestamp := 0 }

/-- A relay message in flight, used to instantiate the relay theorems. -/
def relayDemoMsg : RelayMessage :=
  { MessageID := "m2", NextHop := "a", FinalDest := "d", HopsLeft := 0,
    Payload := [1], Path := ["a", "b"], Timestamp := 7 }

end Network

end HashMouth

/-!
## Theorems

The development below settles, one by one, the properties stated about the
embedded operations: the onion round trip, the peel failure modes, the
ratchet chain-key behaviour, chunk splitting and reassembly, the assembler
invariants, the path builder guarantees, and the relay state machine.
-/

namespace HashMouth

namespace Crypto

theorem length_chacha20Xor (key nonce msg : List Nat) :
    (chacha20Xor key nonce msg).length = msg.length := by
  simp [chacha20Xor]

theorem length_poly1305 (msg key : List Nat) : (poly1305 msg key).length = 16 := by
  simp [poly1305, leBytes]

theorem zipWith_xor_cancel (m : List Nat) :
    ∀ s : List Nat, m.length ≤ s.length →
      List.zipWith (fun b k => b ^^^ k) (List.zipWith (fun b k => b ^^^ k) m s) s = m := by
  induction m with
  | nil => intro s _; simp
  | cons b bs ih =>
    intro s hs
    cases s with
    | nil => simp at hs
    | cons k ks =>
      simp only [List.zipWith_cons_cons, List.cons.injEq]
      exact ⟨Nat.xor_cancel_right k b, ih ks (by simpa using hs)⟩

theorem chacha20Xor_involutive (key nonce msg : List Nat) :
    chacha20Xor key nonce (chacha20Xor key nonce msg) = msg := by
  have hlen : (chacha20Xor key nonce msg).length = msg.length := length_chacha20Xor key nonce msg
  conv in chacha20Xor key nonce (chacha20Xor key nonce msg) =>
    rw [chacha20Xor, hlen]
  rw [chacha20Xor]
  exact zipWith_xor_cancel msg _ (by simp)

theorem open_seal (key nonce plain aad : List Nat) :
    chacha20poly1305Open key nonce (chacha20poly1305Seal key nonce plain aad) aad
      = some plain := by
  have hctlen : (chacha20Xor key nonce plain).length = plain.length :=
    length_chacha20Xor key nonce plain
  have htglen :
      (poly1305 (macData aad (chacha20Xor key nonce plain)) (polyKey key nonce)).length = 16 :=
    length_poly1305 _ _
  unfold chacha20poly1305Seal chacha20poly1305Open
  simp only
  rw [if_neg (by simp only [List.length_append, htglen]; omega)]
  have hsub :
      (chacha20Xor key nonce plain
        ++ poly1305 (macData aad (chacha20Xor key nonce plain)) (polyKey key nonce)).length - 16
      = (chacha20Xor key nonce plain).length := by
    simp [htglen]
  rw [hsub, List.take_left, List.drop_left, if_pos rfl, chacha20Xor_involutive]

theorem create_peel (plain key nonce : List Nat) (hk : key.length = 32)
    (hn : nonce.length = 12) :
    CreateOnionPacket plain key nonce
      = .ok ⟨nonce ++ chacha20poly1305Seal key nonce plain []⟩ ∧
    PeelOnion ⟨nonce ++ chacha20poly1305Seal key nonce plain []⟩ key = .ok plain := by
  constructor
  · simp [CreateOnionPacket, hk]
  · unfold PeelOnion
    rw [if_pos hk]
    have hlen : (nonce ++ chacha20poly1305Seal key nonce plain []).length
        = 12 + (chacha20poly1305Seal key nonce plain []).length := by
      simp [hn]
    rw [if_neg (by simp [hlen])]
    have htake : (nonce ++ chacha20poly1305Seal key nonce plain []).take 12 = nonce := by
      rw [← hn]
      exact List.take_left nonce _
    have hdrop : (nonce ++ chacha20poly1305Seal key nonce plain []).drop 12
        = chacha20poly1305Seal key nonce plain [] := by
      rw [← hn]
      exact List.drop_left nonce _
    simp only [htake, hdrop, open_seal]

/-- C1: wrapping a payload innermost-to-outermost through any list of
32-byte per-hop keys (with their 12-byte nonces) and then peeling with the
keys in outermost-first order recovers exactly the payload; in particular
a single `CreateOnionPacket` followed by `PeelOnion` under the same key
returns the plaintext. -/
theorem onion_roundtrip :
    (∀ (layers : List (List Nat × List Nat)) (payload : List Nat),
      (∀ kn ∈ layers, (kn : List Nat × List Nat).1.length = 32 ∧ kn.2.length = 12) →
      ∃ c, wrapOnionLayers payload layers = .ok c ∧
        peelOnionLayers c (layers.map Prod.fst) = .ok payload) ∧
    (∀ (plain key nonce : List Nat), key.length = 32 → nonce.length = 12 →
      ∃ pkt, CreateOnionPacket plain key nonce = .ok pkt ∧ PeelOnion pkt key = .ok plain) := by
  constructor
  · intro layers
    induction layers with
    | nil => exact fun payload _ => ⟨payload, rfl, rfl⟩
    | cons kn rest ih =>
      intro payload hall
      obtain ⟨hk, hn⟩ := hall kn (List.mem_cons_self kn rest)
      obtain ⟨c, hwrap, hpeel⟩ := ih payload fun x hx => hall x (List.mem_cons_of_mem _ hx)
      obtain ⟨key, nonce⟩ := kn
      refine ⟨nonce ++ chacha20poly1305Seal key nonce c [], ?_, ?_⟩
      · rw [wrapOnionLayers, hwrap]
        simp only [(create_peel c key nonce hk hn).1, OnionPacket.Serialize]
      · rw [List.map_cons, peelOnionLayers]
        simp only [Deserialize]
        rw [(create_peel c key nonce hk hn).2]
        exact hpeel
  · intro plain key nonce hk hn
    exact ⟨_, (create_peel plain key nonce hk hn).1, (create_peel plain key nonce hk hn).2⟩

theorem onion_roundtrip_witness :
    (∀ kn ∈ demoLayers, (kn : List Nat × List Nat).1.length = 32 ∧ kn.2.length = 12) ∧
    (∃ c, wrapOnionLayers [72, 105] demoLayers = .ok c ∧
      peelOnionLayers c (demoLayers.map Prod.fst) = .ok [72, 105]) :=
  ⟨by decide, onion_roundtrip.1 demoLayers [72, 105] (by decide)⟩

theorem open_eq_none_iff (key : List Nat) (pkt : OnionPacket) :
    chacha20poly1305Open key (peelNonce pkt) (peelBody pkt) [] = none
      ↔ ¬ TagVerifies key pkt := by
  unfold chacha20poly1305Open TagVerifies peelTag peelCiphertext
  by_cases h16 : (peelBody pkt).length < 16
  · simp only [if_pos h16, true_iff]
    intro hc
    omega
  · simp only [if_neg h16]
    by_cases htag : (peelBody pkt).drop ((peelBody pkt).length - 16)
        = poly1305 (macData [] ((peelBody pkt).take ((peelBody pkt).length - 16)))
          (polyKey key (peelNonce pkt))
    · simp [htag, not_lt.mp h16]
    · simp [htag]

theorem open_eq_some_of_verifies (key : List Nat) (pkt : OnionPacket)
    (hv : TagVerifies key pkt) :
    chacha20poly1305Open key (peelNonce pkt) (peelBody pkt) []
      = some (chacha20Xor key (peelNonce pkt) (peelCiphertext pkt)) := by
  obtain ⟨h16, htag⟩ := hv
  unfold chacha20poly1305Open
  rw [if_neg (by omega)]
  show (if peelTag pkt
        = poly1305 (macData [] (peelCiphertext pkt)) (polyKey key (peelNonce pkt))
      then some (chacha20Xor key (peelNonce pkt) (peelCiphertext pkt)) else none)
    = some (chacha20Xor key (peelNonce pkt) (peelCiphertext pkt))
  rw [if_pos htag]

/-- C4: for every 32-byte key, `PeelOnion` fails with the malformed-packet
error exactly on payloads shorter than the 12-byte nonce, fails with the
authentication error exactly when the AEAD tag does not verify (which is
what peeling with a key other than the wrapping key produces, the tag
being recomputed under the peeling key), returns the decrypted bytes
otherwise, never returns a plaintext on failure, and has no failure modes
besides those two errors. -/
theorem peel_onion_failure_modes (key : List Nat) (pkt : OnionPacket)
    (hk : key.length = 32) :
    (pkt.Payload.length < 12 → PeelOnion pkt key = .error "invalid payload") ∧
    (12 ≤ pkt.Payload.length → ¬ TagVerifies key pkt →
      PeelOnion pkt key = .error "chacha20poly1305: message authentication failed") ∧
    (12 ≤ pkt.Payload.length → TagVerifies key pkt →
      PeelOnion pkt key = .ok (chacha20Xor key (peelNonce pkt) (peelCiphertext pkt))) ∧
    (∀ e, PeelOnion pkt key = .error e →
      e = "invalid payload" ∨ e = "chacha20poly1305: message authentication failed") ∧
    (∀ e plain, PeelOnion pkt key = .error e → ¬ PeelOnion pkt key = .ok plain) := by
  refine ⟨fun hshort => ?_, fun hlong hnv => ?_, fun hlong hv => ?_, fun e he => ?_,
    fun e plain he hok => ?_⟩
  · unfold PeelOnion
    rw [if_pos hk, if_pos hshort]
  · unfold PeelOnion
    rw [if_pos hk, if_neg (not_lt.mpr hlong)]
    rw [show pkt.Payload.take 12 = peelNonce pkt from rfl,
      show pkt.Payload.drop 12 = peelBody pkt from rfl,
      (open_eq_none_iff key pkt).mpr hnv]
  · unfold PeelOnion
    rw [if_pos hk, if_neg (not_lt.mpr hlong)]
    rw [show pkt.Payload.take 12 = peelNonce pkt from rfl,
      show pkt.Payload.drop 12 = peelBody pkt from rfl,
      open_eq_some_of_verifies key pkt hv]
  · unfold PeelOnion at he
    rw [if_pos hk] at he
    by_cases hshort : pkt.Payload.length < 12
    · rw [if_pos hshort] at he
      exact Or.inl (Except.error.inj he).symm
    · rw [if_neg hshort] at he
      cases hop : chacha20poly1305Open key (pkt.Payload.take 12) (pkt.Payload.drop 12) [] with
      | none =>
        rw [hop] at he
        exact Or.inr (Except.error.inj he).symm
      | some v =>
        rw [hop] at he
        cases he
  · rw [he] at hok
    cases hok

theorem peel_onion_failure_modes_witness :
    zeroKey.length = 32 ∧ (OnionPacket.mk []).Payload.length < 12 ∧
    PeelOnion ⟨[]⟩ zeroKey = .error "invalid payload" :=
  ⟨by decide, by decide, (peel_onion_failure_modes zeroKey ⟨[]⟩ (by decide)).1 (by decide)⟩

theorem ratchetStep_involutive (r : RatchetSession) : r.RatchetStep.RatchetStep = r := by
  cases r with
  | mk dpriv dpub ppub root chain =>
    simp only [RatchetSession.RatchetStep, List.map_map]
    congr 1
    have hcomp : ((fun b => b ^^^ 0x55) ∘ fun b => b ^^^ 0x55) = fun b : Nat => b := by
      funext b
      simp [Function.comp, Nat.xor_cancel_right]
    rw [hcomp]
    exact List.map_id chain

/-- C3: the source ratchet step XORs the chain key with the constant `0x55`,
an involution, so the chain key cycles with period 2: the value after
`n + 2` steps always equals the value after `n` steps, and concretely a
fresh session reuses its step-1 chain key at step 3 — distinct step counts
do not give distinct chain keys. -/
theorem ratchet_chain_key_repeats :
    (∀ (r : RatchetSession) (n : Nat), chainKeyAfter r (n + 2) = chainKeyAfter r n) ∧
    chainKeyAfter demoSession 3 = chainKeyAfter demoSession 1 ∧
    chainKeyAfter demoSession 2 = chainKeyAfter demoSession 0 := by
  have key : ∀ (r : RatchetSession) (n : Nat), chainKeyAfter r (n + 2) = chainKeyAfter r n := by
    intro r n
    unfold chainKeyAfter
    have h2 : RatchetSession.RatchetStep^[n + 2] r
        = RatchetSession.RatchetStep^[n] (r.RatchetStep.RatchetStep) := by
      rw [Function.iterate_add_apply]
      norm_num [Function.iterate_succ_apply]
    rw [h2, ratchetStep_involutive]
  exact ⟨key, key demoSession 1, key demoSession 0⟩

end Crypto

namespace Message

theorem ceil_div_bounds (len cs : Nat) (hcs : 0 < cs) (hlen : 0 < len) :
    0 < (len + cs - 1) / cs ∧ len ≤ ((len + cs - 1) / cs) * cs ∧
      (((len + cs - 1) / cs) - 1) * cs < len := by
  have hdm := Nat.div_add_mod (len + cs - 1) cs
  rw [Nat.mul_comm] at hdm
  have hm : (len + cs - 1) % cs < cs := Nat.mod_lt _ hcs
  have hsm : (((len + cs - 1) / cs) - 1) * cs = ((len + cs - 1) / cs) * cs - 1 * cs :=
    Nat.sub_mul _ 1 cs
  rw [one_mul] at hsm
  have hpos : 0 < (len + cs - 1) / cs := by
    rcases Nat.eq_zero_or_pos ((len + cs - 1) / cs) with h0 | h0
    · rw [h0] at hdm
      omega
    · exact h0
  refine ⟨hpos, ?_, ?_⟩ <;> omega

/-- C6: for positive `chunkSize` and non-empty `data`, `SplitMessage`
returns exactly `⌈len/chunkSize⌉` chunks whose `Seq` fields are `0..N-1`
in order, whose `Total` fields all equal `N`, and whose `Data` fields are
the consecutive `chunkSize`-byte slices of `data`, all of length
`chunkSize` except the final chunk, which has the positive remainder
length; it fails exactly when `chunkSize ≤ 0` or `data` is empty. -/
theorem split_message_spec (messageID : String) (data : List Nat) (chunkSize : Int) :
    ((∃ e, SplitMessage messageID data chunkSize = .error e) ↔
      chunkSize ≤ 0 ∨ data = []) ∧
    (∀ chunks, SplitMessage messageID data chunkSize = .ok chunks →
      chunks.length = (data.length + chunkSize.toNat - 1) / chunkSize.toNat ∧
      (∀ i (hi : i < chunks.length),
        chunks.get ⟨i, hi⟩ = NewChunk messageID (Int.ofNat i) (Int.ofNat chunks.length)
          ((data.drop (i * chunkSize.toNat)).take chunkSize.toNat)) ∧
      (∀ i (hi : i < chunks.length), i + 1 < chunks.length →
        (chunks.get ⟨i, hi⟩).Data.length = chunkSize.toNat) ∧
      (∀ i (hi : i < chunks.length), i + 1 = chunks.length →
        (chunks.get ⟨i, hi⟩).Data.length
            = data.length - (chunks.length - 1) * chunkSize.toNat ∧
          0 < (chunks.get ⟨i, hi⟩).Data.length ∧
          (chunks.get ⟨i, hi⟩).Data.length ≤ chunkSize.toNat)) := by
  by_cases h1 : chunkSize ≤ 0
  · constructor
    · simp [SplitMessage, h1]
    · intro chunks hok
      unfold SplitMessage at hok
      rw [if_pos h1] at hok
      cases hok
  · by_cases h2 : data.length = 0
    · constructor
      · simp [SplitMessage, h1, h2, List.length_eq_zero.mp h2]
      · intro chunks hok
        unfold SplitMessage at hok
        rw [if_neg h1, if_pos h2] at hok
        cases hok
    · have hcs : 0 < chunkSize.toNat := by omega
      have hlen : 0 < data.length := Nat.pos_of_ne_zero h2
      obtain ⟨hNpos, hNup, hNlow⟩ := ceil_div_bounds data.length chunkSize.toNat hcs hlen
      constructor
      · constructor
        · intro ⟨e, he⟩
          unfold SplitMessage at he
          rw [if_neg h1, if_neg h2] at he
          cases he
        · intro hor
          rcases hor with hc | hd
          · exact absurd hc h1
          · rw [hd] at h2
            simp at h2
      · intro chunks hok
        unfold SplitMessage at hok
        rw [if_neg h1, if_neg h2] at hok
        have hchunks : chunks = (List.range ((data.length + chunkSize.toNat - 1)
            / chunkSize.toNat)).map fun i =>
            NewChunk messageID (Int.ofNat i)
              (Int.ofNat ((data.length + chunkSize.toNat - 1) / chunkSize.toNat))
              ((data.drop (i * chunkSize.toNat)).take chunkSize.toNat) :=
          (Except.ok.inj hok).symm
        subst hchunks
        have hlength : ((List.range ((data.length + chunkSize.toNat - 1)
            / chunkSize.toNat)).map fun i =>
            NewChunk messageID (Int.ofNat i)
              (Int.ofNat ((data.length + chunkSize.toNat - 1) / chunkSize.toNat))
              ((data.drop (i * chunkSize.toNat)).take chunkSize.toNat)).length
            = (data.length + chunkSize.toNat - 1) / chunkSize.toNat := by
          simp
        refine ⟨hlength, ?_, ?_, ?_⟩
        · intro i hi
          simp
        · intro i hi hilt
          rw [hlength] at hilt
          have higet : i < (data.length + chunkSize.toNat - 1) / chunkSize.toNat := by
            omega
          have hmul : (i + 1) * chunkSize.toNat
              ≤ (((data.length + chunkSize.toNat - 1) / chunkSize.toNat) - 1)
                * chunkSize.toNat :=
            Nat.mul_le_mul_right _ (by omega)
          have hsucc : (i + 1) * chunkSize.toNat = i * chunkSize.toNat + chunkSize.toNat :=
            Nat.succ_mul i chunkSize.toNat
          simp only [List.get_map, List.get_range, NewChunk]
          simp only [List.length_take, List.length_drop]
          omega
        · intro i hi hieq
          rw [hlength] at hieq
          have hmul : (i + 1) * chunkSize.toNat
              = ((data.length + chunkSize.toNat - 1) / chunkSize.toNat)
                * chunkSize.toNat := by
            rw [hieq]
          have hsucc : (i + 1) * chunkSize.toNat = i * chunkSize.toNat + chunkSize.toNat :=
            Nat.succ_mul i chunkSize.toNat
          have hprev : i * chunkSize.toNat
              = (((data.length + chunkSize.toNat - 1) / chunkSize.toNat) - 1)
                * chunkSize.toNat := by
            rw [show i = ((data.length + chunkSize.toNat - 1) / chunkSize.toNat) - 1
              from by omega]
          simp only [List.get_map, List.get_range, NewChunk]
          simp only [List.length_map, List.length_range, List.length_take, List.length_drop]
          omega

theorem split_message_spec_witness :
    (0 : Int) < 10 ∧ ¬ ([7] : List Nat) = [] ∧
    ∃ chunks, SplitMessage "msg1" [7] 10 = .ok chunks ∧ chunks.length = 1 :=
  ⟨by decide, by decide, by
    have h := (split_message_spec "msg1" [7] 10).2
    refine ⟨_, rfl, ?_⟩
    have h2 := h _ rfl
    rw [h2.1]
    decide⟩

theorem mem_insertChunk (l : List Chunk) (c d : Chunk) (hd : d ∈ insertChunk l c) :
    d ∈ l ∨ d = c := by
  unfold insertChunk at hd
  by_cases hany : l.any fun x => x.Seq = c.Seq
  · rw [if_pos hany] at hd
    obtain ⟨x, hx, hxd⟩ := List.mem_map.mp hd
    by_cases hxs : x.Seq = c.Seq
    · rw [if_pos hxs] at hxd
      exact Or.inr hxd.symm
    · rw [if_neg hxs] at hxd
      exact Or.inl (hxd ▸ hx)
  · rw [if_neg hany] at hd
    rcases List.mem_append.mp hd with h | h
    · exact Or.inl h
    · exact Or.inr (List.mem_singleton.mp h)

/-- C10: `Chunk.Validate` accepts exactly the chunks satisfying the
validity predicate (non-empty message ID, `0 ≤ Seq < Total`, `Total > 0`,
non-empty data); `AddChunk` returns the validation error and the
*unchanged* assembler state on an invalid chunk; and the every-stored-
chunk-valid invariant is preserved by `AddChunk` and by `Assemble`
(`IsComplete` takes no state at all, so it preserves every state
property trivially). -/
theorem chunk_validity_invariant :
    (∀ c : Chunk, c.Validate = none ↔
      (¬ c.MessageID = "" ∧ 0 ≤ c.Seq ∧ c.Seq < c.Total ∧ 0 < c.Total ∧ ¬ c.Data = [])) ∧
    (∀ (ca : ChunkAssembler) (c : Chunk) (e : String),
      c.Validate = some e → ca.AddChunk c = (some e, ca)) ∧
    (∀ (ca : ChunkAssembler) (c : Chunk), StoredValid ca → StoredValid (ca.AddChunk c).2) ∧
    (∀ (ca : ChunkAssembler) (messageID : String),
      StoredValid ca → StoredValid (ca.Assemble messageID).2) := by
  refine ⟨fun c => ?_, fun ca c e he => ?_, fun ca c hv => ?_, fun ca messageID hv => ?_⟩
  · unfold Chunk.Validate
    split_ifs with h1 h2 h3 h4
    · simp [h1]
    · simp only [reduceCtorEq, false_iff]
      intro hc
      omega
    · simp only [reduceCtorEq, false_iff]
      intro hc
      omega
    · simp only [reduceCtorEq, false_iff]
      intro hc
      exact hc.2.2.2.2 (List.length_eq_zero.mp h4)
    · simp only [true_iff]
      exact ⟨h1, by omega, by omega, by omega, fun hnil => h4 (by rw [hnil]; rfl)⟩
  · unfold ChunkAssembler.AddChunk
    rw [he]
  · unfold ChunkAssembler.AddChunk
    cases hval : c.Validate with
    | some e => exact hv
    | none =>
      intro e2 he2 d hd
      unfold ChunkAssembler.updateMsg at he2
      by_cases hhas : ca.chunks.any fun x => x.1 = c.MessageID
      · rw [if_pos hhas] at he2
        obtain ⟨e1, he1, heq⟩ := List.mem_map.mp he2
        by_cases hkey : e1.1 = c.MessageID
        · rw [if_pos hkey] at heq
          rcases mem_insertChunk e1.2 c d (by rw [← heq] at hd; exact hd) with hmem | hceq
          · exact hv e1 he1 d hmem
          · rw [hceq]; exact hval
        · rw [if_neg hkey] at heq
          exact hv e1 he1 d (by rw [heq]; exact hd)
      · rw [if_neg hhas] at he2
        rcases List.mem_append.mp he2 with hold | hnew
        · exact hv e2 hold d hd
        · rw [List.mem_singleton.mp hnew] at hd
          rcases mem_insertChunk [] c d hd with hmem | hceq
          · cases hmem
          · rw [hceq]; exact hval
  · unfold ChunkAssembler.Assemble
    by_cases hcomp : ¬ ca.IsComplete messageID
    · rw [if_pos hcomp]
      exact hv
    · rw [if_neg hcomp]
      intro e2 he2 d hd
      exact hv e2 (List.mem_filter.mp he2).1 d hd

theorem lookupMsg_nodup (ca : ChunkAssembler) (hd : SeqsDistinct ca) (messageID : String)
    (chunks : List Chunk) (h : ca.lookupMsg messageID = some chunks) :
    (chunks.map Chunk.Seq).Nodup := by
  unfold ChunkAssembler.lookupMsg at h
  cases hf : ca.chunks.find? fun e => e.1 = messageID with
  | none => rw [hf] at h; cases h
  | some entry =>
    rw [hf] at h
    cases h
    exact hd entry (List.mem_of_find?_eq_some hf)

theorem length_eq_of_seq_iff (chunks : List Chunk) (N : Nat)
    (hnodup : (chunks.map Chunk.Seq).Nodup)
    (hiff : ∀ i : Int, (∃ c ∈ chunks, c.Seq = i) ↔ 0 ≤ i ∧ i < (N : Int)) :
    chunks.length = N := by
  have hAB : (chunks.map Chunk.Seq).toFinset = (Finset.range N).image (fun k : Nat => (k : Int)) := by
    ext i
    simp only [List.mem_toFinset, List.mem_map, Finset.mem_image, Finset.mem_range]
    constructor
    · rintro ⟨c, hc, rfl⟩
      have hb := (hiff c.Seq).mp ⟨c, hc, rfl⟩
      exact ⟨c.Seq.toNat, by omega, by omega⟩
    · rintro ⟨k, hk, rfl⟩
      obtain ⟨c, hc, hs⟩ := (hiff (k : Int)).mpr ⟨by omega, by omega⟩
      exact ⟨c, hc, hs⟩
  have h1 : (chunks.map Chunk.Seq).toFinset.card = (chunks.map Chunk.Seq).length :=
    List.toFinset_card_of_nodup hnodup
  have h2 : ((Finset.range N).image (fun k : Nat => (k : Int))).card = N := by
    rw [Finset.card_image_of_injective _ fun a b hab => Int.natCast_inj.mp hab]
    exact Finset.card_range N
  rw [hAB, h2] at h1
  rw [List.length_map] at h1
  exact h1.symm

theorem seq_iff_of_length (chunks : List Chunk) (N : Nat)
    (hnodup : (chunks.map Chunk.Seq).Nodup)
    (hsub : ∀ k : Nat, k < N → ∃ c ∈ chunks, c.Seq = (k : Int))
    (hlen : chunks.length = N) :
    ∀ i : Int, (∃ c ∈ chunks, c.Seq = i) ↔ 0 ≤ i ∧ i < (N : Int) := by
  have hBA : (Finset.range N).image (fun k : Nat => (k : Int)) ⊆ (chunks.map Chunk.Seq).toFinset := by
    intro i hi
    simp only [Finset.mem_image, Finset.mem_range] at hi
    obtain ⟨k, hk, rfl⟩ := hi
    obtain ⟨c, hc, hs⟩ := hsub k hk
    simp only [List.mem_toFinset, List.mem_map]
    exact ⟨c, hc, hs⟩
  have h1 : (chunks.map Chunk.Seq).toFinset.card = (chunks.map Chunk.Seq).length :=
    List.toFinset_card_of_nodup hnodup
  have h2 : ((Finset.range N).image (fun k : Nat => (k : Int))).card = N := by
    rw [Finset.card_image_of_injective _ fun a b hab => Int.natCast_inj.mp hab]
    exact Finset.card_range N
  have hcardle : (chunks.map Chunk.Seq).toFinset.card
      ≤ ((Finset.range N).image (fun k : Nat => (k : Int))).card := by
    rw [h1, h2, List.length_map, hlen]
  have hAB : (Finset.range N).image (fun k : Nat => (k : Int)) = (chunks.map Chunk.Seq).toFinset :=
    Finset.eq_of_subset_of_card_le hBA hcardle
  intro i
  constructor
  · rintro ⟨c, hc, rfl⟩
    have hmem : c.Seq ∈ (chunks.map Chunk.Seq).toFinset := by
      simp only [List.mem_toFinset, List.mem_map]
      exact ⟨c, hc, rfl⟩
    rw [← hAB] at hmem
    simp only [Finset.mem_image, Finset.mem_range] at hmem
    obtain ⟨k, hk, hkeq⟩ := hmem
    omega
  · rintro ⟨h0, hN⟩
    obtain ⟨c, hc, hs⟩ := hsub i.toNat (by omega)
    exact ⟨c, hc, by omega⟩

/-- C2 amended: `IsComplete` is true iff the message holds a non-empty set
of chunks whose sequence numbers are exactly `{0..N-1}` for some `N > 0`
where `N` is the `Total` reported by the *first-stored* chunk — the other
stored chunks' `Total` fields are not examined.  (Stated for states whose
per-message sequence numbers are distinct, which `AddChunk` guarantees.) -/
theorem is_complete_iff (ca : ChunkAssembler) (messageID : String)
    (hd : SeqsDistinct ca) :
    ca.IsComplete messageID = true ↔
      ∃ chunks c0 rest, ca.lookupMsg messageID = some chunks ∧ chunks = c0 :: rest ∧
        ∃ N : Nat, 0 < N ∧ c0.Total = (N : Int) ∧
          ∀ i : Int, (∃ c ∈ chunks, c.Seq = i) ↔ 0 ≤ i ∧ i < (N : Int) := by
  constructor
  · intro h
    unfold ChunkAssembler.IsComplete at h
    split at h
    · cases h
    · rename_i chunks hlk
      split at h
      · cases h
      · rename_i c0 rest
        have h2 : (if ((c0 :: rest).length : Int) ≠ c0.Total then false
            else (List.range c0.Total.toNat).all fun i =>
              (c0 :: rest).any fun c => decide (c.Seq = (i : Int))) = true := h
        by_cases hlen : ((c0 :: rest).length : Int) ≠ c0.Total
        · rw [if_pos hlen] at h2
          cases h2
        · rw [if_neg hlen] at h2
          have hnodup := lookupMsg_nodup ca hd messageID (c0 :: rest) hlk
          have hlen2 : ((c0 :: rest).length : Int) = c0.Total := not_not.mp hlen
          have hlp : 0 < (c0 :: rest).length := by simp
          have hsub : ∀ k : Nat, k < c0.Total.toNat →
              ∃ c ∈ c0 :: rest, c.Seq = (k : Int) := by
            intro k hk
            have hall := List.all_eq_true.mp h2 k (List.mem_range.mpr hk)
            obtain ⟨c, hc, hcs⟩ := List.any_eq_true.mp hall
            exact ⟨c, hc, of_decide_eq_true hcs⟩
          exact ⟨c0 :: rest, c0, rest, hlk, rfl, c0.Total.toNat, by omega, by omega,
            seq_iff_of_length (c0 :: rest) c0.Total.toNat hnodup hsub (by omega)⟩
  · rintro ⟨chunks, c0, rest, hlk, rfl, N, hN, htot, hiff⟩
    have hnodup := lookupMsg_nodup ca hd messageID (c0 :: rest) hlk
    have hlen : (c0 :: rest).length = N :=
      length_eq_of_seq_iff (c0 :: rest) N hnodup hiff
    unfold ChunkAssembler.IsComplete
    rw [hlk]
    show (if ((c0 :: rest).length : Int) ≠ c0.Total then false
      else (List.range c0.Total.toNat).all fun i =>
        (c0 :: rest).any fun c => c.Seq = (i : Int)) = true
    rw [if_neg (by omega)]
    rw [List.all_eq_true]
    intro k hk
    rw [List.mem_range] at hk
    obtain ⟨c, hc, hs⟩ := (hiff (k : Int)).mpr ⟨by omega, by omega⟩
    exact List.any_eq_true.mpr ⟨c, hc, decide_eq_true hs⟩

theorem is_complete_iff_witness :
    SeqsDistinct completeCA ∧
    (∃ chunks c0 rest, completeCA.lookupMsg "m" = some chunks ∧ chunks = c0 :: rest ∧
      ∃ N : Nat, 0 < N ∧ c0.Total = (N : Int) ∧
        ∀ i : Int, (∃ c ∈ chunks, c.Seq = i) ↔ 0 ≤ i ∧ i < (N : Int)) :=
  ⟨by decide, (is_complete_iff completeCA "m" (by decide)).mp (by decide)⟩

/-- C2 counterexample: an assembler can hold chunks of one message that
disagree on `Total` (here 2 and 3) yet `IsComplete` returns true, because
the code reads `Total` from a single stored chunk; so "every stored chunk
reports `Total = N`" does not hold of any `N`. -/
theorem is_complete_mixed_totals :
    mixedCA.IsComplete "m" = true ∧
    ¬ ∃ N : Int, 0 < N ∧
        (∀ i : Int, (∃ c ∈ (mixedCA.lookupMsg "m").getD [], c.Seq = i) ↔ 0 ≤ i ∧ i < N) ∧
        ∀ c ∈ (mixedCA.lookupMsg "m").getD [], c.Total = N := by
  constructor
  · decide
  · rintro ⟨N, hN, hseq, htot⟩
    have hlist : (mixedCA.lookupMsg "m").getD []
        = [{ MessageID := "m", Seq := 0, Total := 2, Data := [1] },
           { MessageID := "m", Seq := 1, Total := 3, Data := [2] }] := by decide
    rw [hlist] at htot
    have h2 := htot { MessageID := "m", Seq := 0, Total := 2, Data := [1] }
      (List.mem_cons_self _ _)
    have h3 := htot { MessageID := "m", Seq := 1, Total := 3, Data := [2] }
      (by simp)
    simp only at h2 h3
    omega

theorem flatten_slices (cs : Nat) (hcs : 0 < cs) :
    ∀ (n : Nat) (data : List Nat), data.length ≤ n * cs →
      ((List.range n).map fun i => (data.drop (i * cs)).take cs).flatten = data := by
  intro n
  induction n with
  | zero =>
    intro data hlen
    simp only [Nat.zero_mul, Nat.le_zero] at hlen
    simp [List.length_eq_zero.mp hlen]
  | succ n ih =>
    intro data hlen
    rw [List.range_succ_eq_map]
    simp only [List.map_cons, List.map_map, List.flatten_cons, Nat.zero_mul,
      List.drop_zero]
    have hmap : (List.range n).map ((fun i => (data.drop (i * cs)).take cs) ∘ Nat.succ)
        = (List.range n).map fun i => ((data.drop cs).drop (i * cs)).take cs := by
      refine List.map_congr_left fun i _ => ?_
      simp only [Function.comp]
      rw [List.drop_drop]
      have harith : cs + i * cs = Nat.succ i * cs := by
        rw [Nat.succ_mul, Nat.add_comm]
      rw [harith]
    rw [hmap, ih (data.drop cs) (by
      simp only [List.length_drop]
      have harith : (n + 1) * cs = n * cs + cs := by
        rw [Nat.add_mul, Nat.one_mul]
      omega)]
    exact List.take_append_drop cs data

theorem findSeq_eq_of_mem (l : List Chunk) (c : Chunk) (hmem : c ∈ l)
    (hnodup : (l.map Chunk.Seq).Nodup) : findSeq l c.Seq = some c := by
  induction l with
  | nil => cases hmem
  | cons d tl ih =>
    simp only [List.map_cons, List.nodup_cons] at hnodup
    by_cases hds : d.Seq = c.Seq
    · have hdc : d = c := by
        rcases List.mem_cons.mp hmem with h | h
        · exact h.symm
        · exact absurd (hds ▸ List.mem_map_of_mem Chunk.Seq h) hnodup.1
      unfold findSeq
      rw [List.find?_cons_of_pos _ (by rw [hdc]; simp)]
      rw [hdc]
    · have hmem2 : c ∈ tl := by
        rcases List.mem_cons.mp hmem with h | h
        · exact absurd (h ▸ rfl) (Ne.symm hds)
        · exact h
      unfold findSeq
      rw [List.find?_cons_of_neg _ (by simpa using hds)]
      exact ih hmem2 hnodup.2

theorem addAll_cons (ca : ChunkAssembler) (c : Chunk) (l : List Chunk) :
    addAll ca (c :: l) = addAll (ca.AddChunk c).2 l := rfl

theorem add_chunk_fresh (messageID : String) (acc : List Chunk) (c : Chunk)
    (hmid : c.MessageID = messageID) (hval : c.Validate = none)
    (hfresh : c.Seq ∉ acc.map Chunk.Seq) :
    (ChunkAssembler.AddChunk ⟨[(messageID, acc)]⟩ c).2 = ⟨[(messageID, acc ++ [c])]⟩ := by
  have hany : (acc.any fun d => d.Seq = c.Seq) = false := by
    rw [List.any_eq_false]
    intro d hd
    simp only [decide_eq_true_eq]
    intro hds
    exact hfresh (hds ▸ List.mem_map_of_mem Chunk.Seq hd)
  unfold ChunkAssembler.AddChunk
  rw [hval]
  unfold ChunkAssembler.updateMsg
  simp only [hmid, List.any_cons, List.any_nil, decide_True, Bool.true_or, if_true,
    List.map_cons, List.map_nil, Bool.or_false]
  unfold insertChunk
  rw [hany]
  simp

theorem addAll_single_message (messageID : String) (l : List Chunk) :
    ∀ acc : List Chunk,
      (∀ c ∈ l, c.MessageID = messageID ∧ c.Validate = none) →
      ((acc ++ l).map Chunk.Seq).Nodup →
      addAll ⟨[(messageID, acc)]⟩ l = ⟨[(messageID, acc ++ l)]⟩ := by
  induction l with
  | nil => intro acc _ _; simp [addAll]
  | cons c tl ih =>
    intro acc hall hnodup
    have hc := hall c (List.mem_cons_self c tl)
    have hfresh : c.Seq ∉ acc.map Chunk.Seq := by
      rw [List.map_append] at hnodup
      have hdisj := (List.nodup_append.mp hnodup).2.2
      intro hmem
      exact hdisj hmem (by simp)
    have hassoc : (acc ++ [c]) ++ tl = acc ++ c :: tl := by simp
    rw [addAll_cons, add_chunk_fresh messageID acc c hc.1 hc.2 hfresh,
      ih (acc ++ [c]) (fun d hd => hall d (List.mem_cons_of_mem c hd))
        (by rw [hassoc]; exact hnodup),
      hassoc]

theorem addAll_from_empty (messageID : String) (c : Chunk) (tl : List Chunk)
    (hall : ∀ d ∈ c :: tl, d.MessageID = messageID ∧ d.Validate = none)
    (hnodup : ((c :: tl).map Chunk.Seq).Nodup) :
    addAll NewChunkAssembler (c :: tl) = ⟨[(messageID, c :: tl)]⟩ := by
  have hc := hall c (List.mem_cons_self c tl)
  have hfirst : (ChunkAssembler.AddChunk NewChunkAssembler c).2 = ⟨[(messageID, [c])]⟩ := by
    unfold ChunkAssembler.AddChunk
    rw [hc.2]
    unfold ChunkAssembler.updateMsg
    simp only [NewChunkAssembler, List.any_nil, Bool.false_eq_true, if_false,
      List.nil_append]
    unfold insertChunk
    simp [hc.1]
  rw [addAll_cons, hfirst,
    addAll_single_message messageID tl [c]
      (fun d hd => hall d (List.mem_cons_of_mem c hd)) (by simpa using hnodup)]
  simp

/-- C5: splitting a non-empty message into chunks, adding the chunks to a
fresh assembler in any order (any permutation of the split output), and
assembling returns exactly the original data.  The message ID is assumed
non-empty, as chunk validity requires (an empty ID would make `AddChunk`
reject every chunk). -/
theorem split_assemble_roundtrip (messageID : String) (data : List Nat)
    (chunkSize : Int) (l chunks : List Chunk)
    (hmid : ¬ messageID = "") (hdata : ¬ data = []) (hcs : 0 < chunkSize)
    (hsplit : SplitMessage messageID data chunkSize = .ok chunks)
    (hperm : l.Perm chunks) :
    ((addAll NewChunkAssembler l).Assemble messageID).1 = .ok data := by
  have hcsn : 0 < chunkSize.toNat := by omega
  have hlen0 : 0 < data.length := List.length_pos.mpr hdata
  obtain ⟨hNpos, hNup, hNlow⟩ := ceil_div_bounds data.length chunkSize.toNat hcsn hlen0
  unfold SplitMessage at hsplit
  rw [if_neg (by omega), if_neg (by omega)] at hsplit
  have hchunks : chunks = (List.range ((data.length + chunkSize.toNat - 1)
      / chunkSize.toNat)).map fun i =>
      NewChunk messageID (Int.ofNat i)
        (Int.ofNat ((data.length + chunkSize.toNat - 1) / chunkSize.toNat))
        ((data.drop (i * chunkSize.toNat)).take chunkSize.toNat) :=
    (Except.ok.inj hsplit).symm
  subst hchunks
  set N := (data.length + chunkSize.toNat - 1) / chunkSize.toNat with hNdef
  have hmem_all : ∀ c ∈ (List.range N).map fun i =>
      NewChunk messageID (Int.ofNat i) (Int.ofNat N)
        ((data.drop (i * chunkSize.toNat)).take chunkSize.toNat),
      ∃ i, i < N ∧ c = NewChunk messageID (Int.ofNat i) (Int.ofNat N)
        ((data.drop (i * chunkSize.toNat)).take chunkSize.toNat) := by
    intro c hc
    obtain ⟨i, hi, rfl⟩ := List.mem_map.mp hc
    exact ⟨i, List.mem_range.mp hi, rfl⟩
  have hslice_pos : ∀ i, i < N →
      0 < ((data.drop (i * chunkSize.toNat)).take chunkSize.toNat).length := by
    intro i hi
    have hmul1 : i * chunkSize.toNat ≤ (N - 1) * chunkSize.toNat :=
      Nat.mul_le_mul_right _ (by omega)
    simp only [List.length_take, List.length_drop]
    omega
  have hvalid : ∀ c ∈ (List.range N).map fun i =>
      NewChunk messageID (Int.ofNat i) (Int.ofNat N)
        ((data.drop (i * chunkSize.toNat)).take chunkSize.toNat),
      c.MessageID = messageID ∧ c.Validate = none := by
    intro c hc
    obtain ⟨i, hiN, rfl⟩ := hmem_all c hc
    refine ⟨rfl, ?_⟩
    have hdl := hslice_pos i hiN
    simp only [NewChunk, Chunk.Validate]
    rw [if_neg hmid, if_neg (by simp only [Int.ofNat_eq_natCast]; omega),
      if_neg (by simp only [Int.ofNat_eq_natCast]; omega), if_neg (by omega)]
  have hseqs : (((List.range N).map fun i =>
      NewChunk messageID (Int.ofNat i) (Int.ofNat N)
        ((data.drop (i * chunkSize.toNat)).take chunkSize.toNat)).map Chunk.Seq)
      = (List.range N).map Int.ofNat := by
    rw [List.map_map]
    exact List.map_congr_left fun i _ => rfl
  have hnodupc : ((((List.range N).map fun i =>
      NewChunk messageID (Int.ofNat i) (Int.ofNat N)
        ((data.drop (i * chunkSize.toNat)).take chunkSize.toNat)).map Chunk.Seq)).Nodup := by
    rw [hseqs]
    exact (List.nodup_range N).map fun a b hab => Int.ofNat.inj hab
  have hmem_l : ∀ c ∈ l, c.MessageID = messageID ∧ c.Validate = none :=
    fun c hc => hvalid c (hperm.mem_iff.mp hc)
  have hnodupl : (l.map Chunk.Seq).Nodup := ((hperm.map Chunk.Seq).nodup_iff).mpr hnodupc
  have hlenl : l.length = N := by
    rw [hperm.length_eq]
    simp
  cases l with
  | nil => simp at hlenl; omega
  | cons c0 tl =>
    have hstate := addAll_from_empty messageID c0 tl hmem_l hnodupl
    rw [hstate]
    have hlk : (⟨[(messageID, c0 :: tl)]⟩ : ChunkAssembler).lookupMsg messageID
        = some (c0 :: tl) := by
      simp [ChunkAssembler.lookupMsg]
    have htotal : ∀ c ∈ c0 :: tl, c.Total = (N : Int) := by
      intro c hc
      obtain ⟨i, hiN, rfl⟩ := hmem_all c (hperm.mem_iff.mp hc)
      rfl
    have hfind : ∀ k, k < N → findSeq (c0 :: tl)
        ((NewChunk messageID (Int.ofNat k) (Int.ofNat N)
          ((data.drop (k * chunkSize.toNat)).take chunkSize.toNat)).Seq)
        = some (NewChunk messageID (Int.ofNat k) (Int.ofNat N)
          ((data.drop (k * chunkSize.toNat)).take chunkSize.toNat)) := by
      intro k hk
      exact findSeq_eq_of_mem (c0 :: tl) _
        (hperm.mem_iff.mpr (List.mem_map_of_mem _ (List.mem_range.mpr hk))) hnodupl
    have hpresence : ∀ k : Nat, k < N → ∃ c ∈ c0 :: tl, c.Seq = (k : Int) := by
      intro k hk
      exact ⟨NewChunk messageID (Int.ofNat k) (Int.ofNat N)
          ((data.drop (k * chunkSize.toNat)).take chunkSize.toNat),
        hperm.mem_iff.mpr (List.mem_map_of_mem _ (List.mem_range.mpr hk)), rfl⟩
    have htc0 : c0.Total = (N : Int) := htotal c0 (List.mem_cons_self c0 tl)
    have hcomp : (⟨[(messageID, c0 :: tl)]⟩ : ChunkAssembler).IsComplete messageID
        = true := by
      unfold ChunkAssembler.IsComplete
      rw [hlk]
      show (if ((c0 :: tl).length : Int) ≠ c0.Total then false
        else (List.range c0.Total.toNat).all fun i =>
          (c0 :: tl).any fun c => decide (c.Seq = (i : Int))) = true
      rw [if_neg (by omega)]
      rw [List.all_eq_true]
      intro k hk
      rw [List.mem_range] at hk
      obtain ⟨c, hc, hs⟩ := hpresence k (by omega)
      exact List.any_eq_true.mpr ⟨c, hc, decide_eq_true (by omega)⟩
    unfold ChunkAssembler.Assemble
    rw [if_neg (not_not_intro hcomp)]
    simp only [hlk, Option.getD_some]
    have hf0 : findSeq (c0 :: tl) 0
        = some (NewChunk messageID (Int.ofNat 0) (Int.ofNat N)
          ((data.drop (0 * chunkSize.toNat)).take chunkSize.toNat)) := hfind 0 hNpos
    have htotN : ((Option.map Chunk.Total (findSeq (c0 :: tl) 0)).getD 0).toNat = N := by
      rw [hf0]
      rfl
    rw [htotN]
    have hmapres : ((List.range N).map fun i =>
        ((findSeq (c0 :: tl) (Int.ofNat i)).map Chunk.Data).getD [])
        = (List.range N).map fun i =>
          (data.drop (i * chunkSize.toNat)).take chunkSize.toNat := by
      refine List.map_congr_left fun i hi => ?_
      rw [show findSeq (c0 :: tl) (Int.ofNat i)
          = some (NewChunk messageID (Int.ofNat i) (Int.ofNat N)
            ((data.drop (i * chunkSize.toNat)).take chunkSize.toNat))
        from hfind i (List.mem_range.mp hi)]
      rfl
    rw [hmapres, flatten_slices chunkSize.toNat hcsn N data (by omega)]

theorem split_assemble_roundtrip_witness :
    ¬ "msg1" = "" ∧ ¬ ([10, 20, 30] : List Nat) = [] ∧ (0 : Int) < 2 ∧
    ∃ chunks, SplitMessage "msg1" [10, 20, 30] 2 = .ok chunks ∧
      ∃ l : List Chunk, l.Perm chunks ∧
        ((addAll NewChunkAssembler l).Assemble "msg1").1 = .ok [10, 20, 30] := by
  refine ⟨by decide, by decide, by decide, _, rfl, ?_⟩
  refine ⟨(SplitMessage "msg1" [10, 20, 30] 2).toOption.getD [] |>.reverse, ?_, ?_⟩
  · exact List.reverse_perm _
  · exact split_assemble_roundtrip "msg1" [10, 20, 30] 2 _ _ (by decide) (by decide)
      (by decide) rfl (List.reverse_perm _)

theorem chunk_validity_invariant_witness :
    badChunk.Validate = some "message ID cannot be empty" ∧
    NewChunkAssembler.AddChunk badChunk
      = (some "message ID cannot be empty", NewChunkAssembler) :=
  ⟨rfl, chunk_validity_invariant.2.1 NewChunkAssembler badChunk
    "message ID cannot be empty" rfl⟩

end Message

namespace Routing

theorem selectLoop_some (available : List String) (pathLength : Nat)
    (hava : 0 < available.length) :
    ∀ (draws : List Nat) (used : List Nat) (r : Except String Path),
      used.Nodup → (∀ i ∈ used, i < available.length) →
      used.length ≤ pathLength →
      selectLoop available pathLength draws
        (used.map fun i => available.getD i "") used = some r →
      ∃ usedf : List Nat, usedf.Nodup ∧ (∀ i ∈ usedf, i < available.length) ∧
        usedf.length = pathLength ∧
        r = NewPath (usedf.map fun i => available.getD i "") := by
  intro draws
  induction draws with
  | nil =>
    intro used r hnd hbound hle hloop
    unfold selectLoop at hloop
    by_cases hlt : (used.map fun i => available.getD i "").length < pathLength
    · rw [if_pos hlt] at hloop
      cases hloop
    · rw [if_neg hlt] at hloop
      cases hloop
      exact ⟨used, hnd, hbound, by simp only [List.length_map] at hlt; omega, rfl⟩
  | cons d rest ih =>
    intro used r hnd hbound hle hloop
    unfold selectLoop at hloop
    by_cases hlt : (used.map fun i => available.getD i "").length < pathLength
    · rw [if_pos hlt] at hloop
      simp only [List.length_map] at hlt
      by_cases hused : used.contains (d % available.length)
      · rw [if_pos hused] at hloop
        exact ih used r hnd hbound hle hloop
      · rw [if_neg hused] at hloop
        have hmapnew : (used.map fun i => available.getD i "")
            ++ [available.getD (d % available.length) ""]
            = (used ++ [d % available.length]).map fun i => available.getD i "" := by
          rw [List.map_append]
          rfl
        rw [hmapnew] at hloop
        have hnotmem : d % available.length ∉ used := by
          intro hm
          exact hused (by simpa using hm)
        exact ih (used ++ [d % available.length]) r
          (by
            rw [List.nodup_append]
            exact ⟨hnd, List.nodup_singleton _, by
              intro a ha hmem
              rw [List.mem_singleton] at hmem
              subst hmem
              exact hnotmem ha⟩)
          (by
            intro i hi
            rcases List.mem_append.mp hi with h | h
            · exact hbound i h
            · rw [List.mem_singleton.mp h]
              exact Nat.mod_lt d hava)
          (by simp only [List.length_append, List.length_singleton]; omega)
          hloop
    · rw [if_neg hlt] at hloop
      cases hloop
      exact ⟨used, hnd, hbound, by simp only [List.length_map] at hlt; omega, rfl⟩

/-- C7: for pairwise-distinct available nodes and bounds
`1 ≤ minHops ≤ maxHops`, and for every outcome of the random draws,
`BuildPathExcluding` returns the insufficient-nodes error exactly when
fewer than `minHops` nodes survive the exclusion filter, and any path it
returns has no duplicates, avoids the excluded nodes, and has length in
`[minHops, min(maxHops, |available \ excluded|)]`. -/
theorem build_path_excluding_spec (nodes : List String) (minHops maxHops : Int)
    (excludeNodes : List String) (lengthDraw : Nat) (draws : List Nat)
    (hnodup : nodes.Nodup) (hmin : 1 ≤ minHops) (hmax : minHops ≤ maxHops) :
    (((nodes.filter fun n => ¬ excludeNodes.contains n).length : Int) < minHops →
      (PathBuilder.mk nodes minHops maxHops).BuildPathExcluding excludeNodes lengthDraw draws
        = some (.error "not enough nodes after exclusion")) ∧
    (∀ e, (PathBuilder.mk nodes minHops maxHops).BuildPathExcluding excludeNodes
        lengthDraw draws = some (.error e) →
      ((nodes.filter fun n => ¬ excludeNodes.contains n).length : Int) < minHops ∧
        e = "not enough nodes after exclusion") ∧
    (∀ p, (PathBuilder.mk nodes minHops maxHops).BuildPathExcluding excludeNodes
        lengthDraw draws = some (.ok p) →
      p.Nodes.Nodup ∧ (∀ x ∈ p.Nodes, ¬ x ∈ excludeNodes) ∧
      minHops ≤ (p.Nodes.length : Int) ∧ (p.Nodes.length : Int) ≤ maxHops ∧
      p.Nodes.length ≤ (nodes.filter fun n => ¬ excludeNodes.contains n).length) := by
  set F := nodes.filter fun n => ¬ excludeNodes.contains n with hFdef
  by_cases hlt : (F.length : Int) < minHops
  · have hres : (PathBuilder.mk nodes minHops maxHops).BuildPathExcluding excludeNodes
        lengthDraw draws = some (.error "not enough nodes after exclusion") := by
      simp only [PathBuilder.BuildPathExcluding]
      rw [← hFdef, if_pos hlt]
    refine ⟨fun _ => hres, fun e he => ?_, fun p hp => ?_⟩
    · rw [hres] at he
      exact ⟨hlt, (Except.error.inj (Option.some.inj he)).symm⟩
    · rw [hres] at hp
      cases Option.some.inj hp
  · have hFnodup : F.Nodup := hnodup.filter _
    have hnpb : NewPathBuilder F minHops maxHops = .ok ⟨F, minHops, maxHops⟩ := by
      unfold NewPathBuilder
      rw [if_neg (by omega), if_neg (by omega), if_neg hlt]
    have hred : (PathBuilder.mk nodes minHops maxHops).BuildPathExcluding excludeNodes
        lengthDraw draws
        = (PathBuilder.mk F minHops maxHops).BuildRandomPath lengthDraw draws := by
      simp only [PathBuilder.BuildPathExcluding]
      rw [← hFdef, if_neg hlt, hnpb]
    have hF0 : ¬ F.length = 0 := by omega
    set off : Nat := lengthDraw % (maxHops - minHops + 1).toNat with hoffdef
    set pl0 : Int := minHops + (off : Int) with hpl0def
    set pl : Int := if pl0 > (F.length : Int) then (F.length : Int) else pl0 with hpldef
    have hoffle : (off : Int) ≤ maxHops - minHops := by
      have h1 : 0 < (maxHops - minHops + 1).toNat := by omega
      have h2 : off < (maxHops - minHops + 1).toNat := Nat.mod_lt _ h1
      omega
    have hpl_ge : minHops ≤ pl := by
      rw [hpldef]
      split_ifs <;> omega
    have hpl_le_max : pl ≤ maxHops := by
      rw [hpldef]
      split_ifs <;> omega
    have hpl_le_F : pl ≤ (F.length : Int) := by
      rw [hpldef]
      split_ifs <;> omega
    have hplN : (pl.toNat : Int) = pl := by omega
    have hred2 : (PathBuilder.mk F minHops maxHops).BuildRandomPath lengthDraw draws
        = selectLoop F pl.toNat draws [] [] := by
      simp only [PathBuilder.BuildRandomPath]
      rw [if_neg hF0, ← hoffdef, ← hpl0def, ← hpldef]
    have hmain : ∀ r, selectLoop F pl.toNat draws [] [] = some r →
        ∃ usedf : List Nat, usedf.Nodup ∧ (∀ i ∈ usedf, i < F.length) ∧
          usedf.length = pl.toNat ∧
          r = .ok ⟨usedf.map fun i => F.getD i ""⟩ := by
      intro r hr
      have hr2 : selectLoop F pl.toNat draws
          (([] : List Nat).map fun i => F.getD i "") [] = some r := by
        simpa using hr
      obtain ⟨usedf, hnd, hbd, hlenf, hre⟩ := selectLoop_some F pl.toNat (by omega)
        draws [] r List.nodup_nil (by simp) (by simp) hr2
      refine ⟨usedf, hnd, hbd, hlenf, ?_⟩
      rw [hre]
      unfold NewPath
      rw [if_neg (by simp only [List.length_map]; omega)]
    rw [hred, hred2]
    refine ⟨fun hcon => absurd hcon hlt, fun e he => ?_, fun p hp => ?_⟩
    · obtain ⟨usedf, _, _, _, hre⟩ := hmain _ he
      cases hre
    · obtain ⟨usedf, hnd, hbd, hlenf, hre⟩ := hmain _ hp
      cases Except.ok.inj hre
      have hlen2 : (usedf.map fun i => F.getD i "").length = usedf.length :=
        List.length_map usedf _
      refine ⟨?_, ?_, ?_, ?_, ?_⟩
      · refine List.Nodup.map_on ?_ hnd
        intro i hi j hj hij
        have hif := hbd i hi
        have hjf := hbd j hj
        rw [List.getD_eq_getElem F "" hif, List.getD_eq_getElem F "" hjf] at hij
        exact (List.Nodup.getElem_inj_iff hFnodup).mp hij
      · intro x hx
        obtain ⟨i, hi, rfl⟩ := List.mem_map.mp hx
        have hif := hbd i hi
        rw [List.getD_eq_getElem F "" hif]
        have hmemF : F[i] ∈ F := List.getElem_mem hif
        have h2 := List.mem_filter.mp hmemF
        simpa using h2.2
      · rw [hlen2, hlenf]
        omega
      · rw [hlen2, hlenf]
        omega
      · rw [hlen2, hlenf]
        omega

theorem build_path_excluding_spec_witness :
    (["a", "b", "c"] : List String).Nodup ∧ (1 : Int) ≤ 1 ∧ (1 : Int) ≤ 2 ∧
    ∃ p, (PathBuilder.mk ["a", "b", "c"] 1 2).BuildPathExcluding ["a"] 0 [0, 1]
        = some (.ok p) ∧
      p.Nodes.Nodup ∧ (∀ x ∈ p.Nodes, ¬ x ∈ (["a"] : List String)) ∧
      (1 : Int) ≤ (p.Nodes.length : Int) := by
  refine ⟨by decide, by decide, by decide, ⟨["b"]⟩, ?_, ?_⟩
  · rfl
  · have h := (build_path_excluding_spec ["a", "b", "c"] 1 2 ["a"] 0 [0, 1]
      (by decide) (by decide) (by decide)).2.2 ⟨["b"]⟩ (by rfl)
    exact ⟨h.1, h.2.1, h.2.2.1⟩

end Routing

namespace Network

/-- C8 counterexample: a message whose hop count is already 0 is *delivered*,
not dropped with the hop-limit error, when it sits at its final destination,
because the final-destination check precedes the hop-limit check. -/
theorem process_relay_delivers_with_zero_hops :
    expiredAtDest.HopsLeft ≤ 0 ∧
    ProcessRelayMessage expiredAtDest "n1" = .ok (expiredAtDest, true) := by
  constructor
  · decide
  · rfl

/-- C8 amended: the hop counter is decremented exactly once per relay step,
and a packet with hop count ≤ 0 that is *not at its final destination* is
dropped with the hop-limit error; at its final destination a packet is
delivered without a hop-count check. -/
theorem process_relay_hop_limit (msg : RelayMessage) (currentNodeID : String) :
    (¬ msg.FinalDest = currentNodeID → msg.HopsLeft ≤ 0 →
      ProcessRelayMessage msg currentNodeID = .error "message exceeded hop limit") ∧
    (¬ msg.FinalDest = currentNodeID → 0 < msg.HopsLeft →
      ∃ m2, ProcessRelayMessage msg currentNodeID = .ok (m2, false) ∧
        m2.HopsLeft = msg.HopsLeft - 1) ∧
    (msg.FinalDest = currentNodeID → ProcessRelayMessage msg currentNodeID = .ok (msg, true)) := by
  refine ⟨fun hne hle => ?_, fun hne hpos => ?_, fun heq => ?_⟩
  · simp only [ProcessRelayMessage, if_neg hne, if_pos hle]
  · simp only [ProcessRelayMessage, if_neg hne, if_neg (not_le.mpr hpos)]
    refine ⟨_, rfl, ?_⟩
    by_cases hp : msg.Path.length > 0
    · simp only [if_pos hp]
      cases nextHopInPath msg.Path currentNodeID <;> rfl
    · simp only [if_neg hp]
  · simp only [ProcessRelayMessage, if_pos heq]

theorem process_relay_hop_limit_witness :
    ¬ relayDemoMsg.FinalDest = "a" ∧ relayDemoMsg.HopsLeft ≤ 0 ∧
    ProcessRelayMessage relayDemoMsg "a" = .error "message exceeded hop limit" :=
  ⟨by decide, by decide,
    (process_relay_hop_limit relayDemoMsg "a").1 (by decide) (by decide)⟩

/-- C9: a successful `ProcessRelayMessage` changes at most `HopsLeft` and
`NextHop` — `MessageID`, `FinalDest`, `Payload`, `Path` and `Timestamp` are
returned unchanged — and in the delivery case the message is returned
entirely unmodified. -/
theorem process_relay_frame (msg : RelayMessage) (currentNodeID : String)
    (m2 : RelayMessage) (b : Bool)
    (h : ProcessRelayMessage msg currentNodeID = .ok (m2, b)) :
    m2.MessageID = msg.MessageID ∧ m2.FinalDest = msg.FinalDest ∧
    m2.Payload = msg.Payload ∧ m2.Path = msg.Path ∧ m2.Timestamp = msg.Timestamp ∧
    (msg.FinalDest = currentNodeID → m2 = msg ∧ b = true) := by
  by_cases hd : msg.FinalDest = currentNodeID
  · simp only [ProcessRelayMessage, if_pos hd] at h
    cases h
    exact ⟨rfl, rfl, rfl, rfl, rfl, fun _ => ⟨rfl, rfl⟩⟩
  · simp only [ProcessRelayMessage, if_neg hd] at h
    by_cases hl : msg.HopsLeft ≤ 0
    · simp [if_pos hl] at h
    · simp only [if_neg hl] at h
      by_cases hp : msg.Path.length > 0
      · simp only [if_pos hp] at h
        cases hnh : nextHopInPath msg.Path currentNodeID <;> rw [hnh] at h <;>
          cases h <;> exact ⟨rfl, rfl, rfl, rfl, rfl, fun hc => absurd hc hd⟩
      · simp only [if_neg hp] at h
        cases h
        exact ⟨rfl, rfl, rfl, rfl, rfl, fun hc => absurd hc hd⟩

theorem process_relay_frame_witness :
    ProcessRelayMessage relayDemoMsg "d" = .ok (relayDemoMsg, true) ∧
    relayDemoMsg.Payload = relayDemoMsg.Payload :=
  ⟨rfl, (process_relay_frame relayDemoMsg "d" relayDemoMsg true rfl).2.2.1⟩

end Network

end HashMouth
